import Mathlib

/-!
Shallow embedding of BeagleTrinket.ino (Trinket IR proximity alert sketch)
and verification of the specification claims about it.

Conventions used throughout:
  - Machine integers are modelled as Nat with explicit reduction modulo
    2 to the relevant width where the C arithmetic can overflow.  On the
    ATtiny85 AVR target, unsigned int and uint16_t are 16 bits wide and
    int is 16 bits wide, so the product in the decode threshold test and
    the pulse counters reduce modulo 65536; uint32_t values reduce modulo
    4294967296; the uint8_t trigger counter reduces modulo 256.
  - The IR input pin is modelled as a level trace, a function from poll
    time to Bool (true = pin reads high).  The busy-wait loops in
    listenForIR advance time only at delayMicroseconds(RESOLUTION); two
    consecutive pin reads with no delay between them therefore observe
    the same sample.  This matches the spec, which describes the sensor
    as sampled at a fixed polling resolution.
  - The unbounded while(1) of listenForIR is embedded as a fuel-indexed
    iteration of a single-poll step function; divergence of the C loop
    corresponds to the iteration never leaving the running state.
-/

namespace BeagleTrinket

/-- MAXPULSE from the source: the maximum pulse we will listen for. -/
def MAXPULSE : Nat := 5000

/-- NUMPULSES from the source: max IR pulse pairs to sample. -/
def NUMPULSES : Nat := 100

/-- RESOLUTION from the source: microseconds between IR measurements. -/
def RESOLUTION : Nat := 2

/-- sensitivity from the source: alert threshold for the trigger counter. -/
def sensitivity : Nat := 6

/-- sleepTimeout from the source: power management timeout in milliseconds. -/
def sleepTimeout : Nat := 4000

/-- The target code recognised in loop(): 0xFFFFFFFF. -/
def targetCode : Nat := 0xFFFFFFFF

/-- Modulus of the 16 bit unsigned types (unsigned int, uint16_t on AVR). -/
def U16 : Nat := 65536

/-- Modulus of uint32_t. -/
def U32 : Nat := 4294967296

/-- Modulus of uint8_t. -/
def U8 : Nat := 256

/-- One recorded buffer write of listenForIR: pair index (row), column
(0 = high duration, 1 = low duration) and the stored tick count. -/
abbrev CapWrite := Nat × Nat × Nat

/-- Which busy-wait loop of listenForIR is currently polling, together
with the tick count accumulated so far in that loop. -/
inductive CapPhase where
  | measHigh (hp : Nat)
  | measLow (lp : Nat)
deriving DecidableEq

/-- Running state of a listenForIR session: poll time t, currentpulse cp,
the chronological list of writes into the pulses buffer, and the phase. -/
structure CapState where
  t : Nat
  cp : Nat
  writes : List CapWrite
  phase : CapPhase
deriving DecidableEq

/-- Result of a listenForIR session that returned: the returned value of
currentpulse and the writes performed into the pulses buffer. -/
abbrev CapDone := Nat × List CapWrite

/-- One poll step of listenForIR, embedded from the source.  In the high
loop: if the pin reads high, highpulse is incremented (16 bit), one
RESOLUTION delay passes, and the early-return test
((highpulse >= MAXPULSE && currentpulse != 0) || currentpulse == NUMPULSES)
runs; if the pin reads low, the loop exits, pulses[currentpulse][0] is
written, and the low loop is entered at the same poll instant (no delay
separates the two reads), performing its first body iteration.  The low
loop is symmetric; when the pin goes high again pulses[currentpulse][1]
is written, currentpulse is incremented and the high loop re-entered at
the same instant. -/
def capStep (trace : Nat → Bool) (s : CapState) : Sum CapState CapDone :=
  match s.phase with
  | .measHigh hp =>
    if trace s.t then
      let hp1 := (hp + 1) % U16
      if (MAXPULSE ≤ hp1 ∧ s.cp ≠ 0) ∨ s.cp = NUMPULSES then .inr (s.cp, s.writes)
      else .inl { s with t := s.t + 1, phase := .measHigh hp1 }
    else
      let w1 := s.writes ++ [(s.cp, 0, hp)]
      if (MAXPULSE ≤ 1 ∧ s.cp ≠ 0) ∨ s.cp = NUMPULSES then .inr (s.cp, w1)
      else .inl { s with t := s.t + 1, writes := w1, phase := .measLow 1 }
  | .measLow lp =>
    if trace s.t then
      let w1 := s.writes ++ [(s.cp, 1, lp)]
      let cp1 := (s.cp + 1) % U16
      if (MAXPULSE ≤ 1 ∧ cp1 ≠ 0) ∨ cp1 = NUMPULSES then .inr (cp1, w1)
      else .inl { s with t := s.t + 1, cp := cp1, writes := w1, phase := .measHigh 1 }
    else
      let lp1 := (lp + 1) % U16
      if (MAXPULSE ≤ lp1 ∧ s.cp ≠ 0) ∨ s.cp = NUMPULSES then .inr (s.cp, s.writes)
      else .inl { s with t := s.t + 1, phase := .measLow lp1 }

/-- Iterate capStep for at most the given number of polls, stopping at a
return.  .inl is a still-running session, .inr a completed one. -/
def capIter (trace : Nat → Bool) : Nat → CapState → Sum CapState CapDone
  | 0, s => .inl s
  | n + 1, s =>
    match capStep trace s with
    | .inl s1 => capIter trace n s1
    | .inr d => .inr d

/-- The state in which listenForIR starts a session: currentpulse = 0,
highpulse = 0, about to poll the high loop condition. -/
def capInit : CapState := ⟨0, 0, [], .measHigh 0⟩

/-- listenForIR as a fuel-indexed session from the initial state. -/
def listenForIR (trace : Nat → Bool) (fuel : Nat) : Sum CapState CapDone :=
  capIter trace fuel capInit

/-- A capture session diverges on a trace when no amount of fuel makes it
return: the embedding of an infinite busy-wait. -/
def captureDiverges (trace : Nat → Bool) : Prop :=
  ∀ n, (capIter trace n capInit).isLeft = true

/-- All recorded buffer writes use a pair index below NUMPULSES. -/
def writesLt (w : List CapWrite) : Bool :=
  w.all fun e => decide (e.1 < NUMPULSES)

/-- Invariant checked on running capture states: currentpulse below
NUMPULSES and every write so far in bounds. -/
def capStateOK (s : CapState) : Bool :=
  decide (s.cp < NUMPULSES) && writesLt s.writes

/-- Invariant checked on a capture outcome, running or returned. -/
def capOut : Sum CapState CapDone → Bool
  | .inl s => capStateOK s
  | .inr d => decide (d.1 ≤ NUMPULSES) && writesLt d.2

/-- States from which termination of listenForIR is guaranteed: at least
one pulse pair already recorded (so the MAXPULSE early return is armed),
currentpulse still below NUMPULSES, and the phase counter below MAXPULSE. -/
def capInv (s : CapState) : Prop :=
  1 ≤ s.cp ∧ s.cp < NUMPULSES ∧
    (match s.phase with
     | .measHigh hp => hp < MAXPULSE
     | .measLow lp => lp < MAXPULSE)

/-- Termination measure for a capture session with the early return armed:
an upper bound on the number of remaining poll steps. -/
def capMeasure (s : CapState) : Nat :=
  match s.phase with
  | .measHigh hp => (NUMPULSES - s.cp) * (2 * MAXPULSE) + (MAXPULSE - hp) + MAXPULSE
  | .measLow lp => (NUMPULSES - s.cp) * (2 * MAXPULSE) + (MAXPULSE - lp)

/-- The decode threshold test from loop(): the stored 16 bit tick count is
multiplied by RESOLUTION in 16 bit unsigned arithmetic (AVR int is 16 bits
wide, so uint16_t times an int literal wraps modulo 65536), and the bit is
0 exactly when that product lies strictly between 0 and 500. -/
def decodeBit (t : Nat) : Nat :=
  if 0 < (t * RESOLUTION) % U16 ∧ (t * RESOLUTION) % U16 < 500 then 0 else 1

/-- One iteration of the decode loop in loop(): shift the 32 bit
accumulator left by one, then or in the bit decided by the threshold
test on the high duration of the current pulse pair. -/
def decodeStep (acc t : Nat) : Nat :=
  ((acc <<< 1) % U32) ||| decodeBit t

/-- The decode loop from position i for n more positions. -/
def decodeFrom (highs : Nat → Nat) : Nat → Nat → Nat → Nat
  | acc, _, 0 => acc
  | acc, i, n + 1 => decodeFrom highs (decodeStep acc (highs i)) (i + 1) n

/-- The full 32 step decode of loop(), starting from the accumulator value
left in irCode by the assignment irCode = listenForIR(). -/
def decode (highs : Nat → Nat) (acc : Nat) : Nat :=
  decodeFrom highs acc 0 32

/-- The pure value contributed by the decoded bits of positions
i, i+1, ..., i+n-1, most significant first. -/
def bitsVal (highs : Nat → Nat) : Nat → Nat → Nat
  | _, 0 => 0
  | i, n + 1 => decodeBit (highs i) * 2 ^ n + bitsVal highs (i + 1) n

/-- The trigger counter update of one loop() cycle, embedded from the
source: on a decode equal to the target code the uint8_t counter is
incremented by 2 (wrapping modulo 256) and the beep fires when the
incremented value reaches sensitivity; afterwards, in the same cycle, the
counter is decremented by 1 if it is at least 1.  Returns the beep
decision and the counter value at the end of the cycle. -/
def loopTrigger (irCode trigger : Nat) : Bool × Nat :=
  let p :=
    if irCode = targetCode then
      (decide (sensitivity ≤ (trigger + 2) % U8), (trigger + 2) % U8)
    else
      (false, trigger)
  if 1 ≤ p.2 then (p.1, p.2 - 1) else p

/-- The trigger counter after n loop() cycles that all decode the same
code, starting from the given counter value. -/
def loopIter (irCode : Nat) : Nat → Nat → Nat
  | 0, trigger => trigger
  | n + 1, trigger => loopIter irCode n (loopTrigger irCode trigger).2

/-- The idle time computed by the timer interrupt: the uint32_t
subtraction millis() - triggerTimer, which wraps modulo 2^32. -/
def millisElapsed (now last : Nat) : Nat :=
  (now + U32 - last) % U32

/-- The effect of naptime() on the modelled data: the sleep transition
clears the trigger counter (the hardware register writes, the deep sleep
halt and the wake path have no further data-level effect). -/
def naptime : Nat → Nat := fun _ => 0

/-- The body of ISR(TIMER1_COMPA_vect): if the idle time reaches
sleepTimeout, naptime() runs (sleeping until a pin change wakes the
core) and triggerTimer is then set to millis() sampled after the wake,
modelled by the wake argument.  Returns the new triggerTimer, the new
trigger counter, and whether the sleep transition ran. -/
def timerISR (now wake last trigger : Nat) : Nat × Nat × Bool :=
  if sleepTimeout ≤ millisElapsed now last then
    (wake, naptime trigger, true)
  else
    (last, trigger, false)

/-! ## Capture: basic iteration lemmas -/

theorem capIter_succ (trace : Nat → Bool) (n : Nat) (s : CapState) :
    capIter trace (n + 1) s =
      (match capStep trace s with
       | .inl s1 => capIter trace n s1
       | .inr d => .inr d) := rfl

theorem capIter_add (trace : Nat → Bool) (a b : Nat) (s : CapState) :
    capIter trace (a + b) s =
      (match capIter trace a s with
       | .inl s1 => capIter trace b s1
       | .inr d => .inr d) := by
  induction a generalizing s with
  | zero => simp [capIter]
  | succ a ih =>
    have h : a + 1 + b = (a + b) + 1 := by omega
    rw [h, capIter_succ, capIter_succ]
    cases hs : capStep trace s with
    | inl s1 => exact ih s1
    | inr d => rfl

/-- While currentpulse is still 0 and the pin reads high, no early return
can fire: the session just keeps counting (16 bit) and advancing time. -/
theorem capRunHigh (trace : Nat → Bool) :
    ∀ (k t hp : Nat) (w : List CapWrite), hp < U16 →
      (∀ j, j < k → trace (t + j) = true) →
      capIter trace k ⟨t, 0, w, .measHigh hp⟩ =
        .inl ⟨t + k, 0, w, .measHigh ((hp + k) % U16)⟩ := by
  intro k
  induction k with
  | zero =>
    intro t hp w hhp _
    simp [capIter, Nat.mod_eq_of_lt hhp]
  | succ k ih =>
    intro t hp w hhp htr
    have ht0 : trace t = true := by simpa using htr 0 (by omega)
    have hcond : ¬ ((MAXPULSE ≤ (hp + 1) % U16 ∧ (0 : Nat) ≠ 0) ∨ (0 : Nat) = NUMPULSES) := by
      simp only [NUMPULSES, MAXPULSE, U16]
      omega
    have hstep : capStep trace ⟨t, 0, w, .measHigh hp⟩ =
        .inl ⟨t + 1, 0, w, .measHigh ((hp + 1) % U16)⟩ := by
      simp [capStep, ht0, NUMPULSES]
    rw [capIter_succ, hstep]
    have hmod : (hp + 1) % U16 < U16 := Nat.mod_lt _ (by norm_num [U16])
    have hsh : ∀ j, j < k → trace (t + 1 + j) = true := by
      intro j hj
      have := htr (j + 1) (by omega)
      simpa [show t + (j + 1) = t + 1 + j by omega] using this
    show capIter trace k ⟨t + 1, 0, w, .measHigh ((hp + 1) % U16)⟩ =
      Sum.inl ⟨t + (k + 1), 0, w, .measHigh ((hp + (k + 1)) % U16)⟩
    rw [ih (t + 1) ((hp + 1) % U16) w hmod hsh]
    have e1 : t + 1 + k = t + (k + 1) := by omega
    have e2 : ((hp + 1) % U16 + k) % U16 = (hp + (k + 1)) % U16 := by
      simp only [U16]
      omega
    rw [e1, e2]

/-! ## Capture: buffer safety invariant -/

theorem writesLt_append (w : List CapWrite) (e : CapWrite) :
    writesLt (w ++ [e]) = (writesLt w && decide (e.1 < NUMPULSES)) := by
  simp [writesLt, List.all_append]

theorem capStep_capOut (trace : Nat → Bool) (s : CapState) (h : capStateOK s = true) :
    capOut (capStep trace s) = true := by
  obtain ⟨t, cp, w, ph⟩ := s
  simp only [capStateOK, Bool.and_eq_true, decide_eq_true_eq] at h
  obtain ⟨hcp, hw⟩ := h
  cases ph with
  | measHigh hp =>
    by_cases htr : trace t = true
    · simp only [capStep, htr, if_true]
      split
      · simp only [capOut, Bool.and_eq_true, decide_eq_true_eq]
        exact ⟨by omega, hw⟩
      · simp only [capOut, capStateOK, Bool.and_eq_true, decide_eq_true_eq]
        exact ⟨hcp, hw⟩
    · simp only [capStep, htr, if_false, Bool.not_eq_true] at htr ⊢
      simp only [htr, Bool.false_eq_true, if_false]
      split
      · simp only [capOut, Bool.and_eq_true, decide_eq_true_eq, writesLt_append]
        exact ⟨by omega, hw, by simpa using hcp⟩
      · simp only [capOut, capStateOK, Bool.and_eq_true, decide_eq_true_eq, writesLt_append]
        exact ⟨hcp, hw, by simpa using hcp⟩
  | measLow lp =>
    by_cases htr : trace t = true
    · simp only [capStep, htr, if_true]
      have hcp1 : (cp + 1) % U16 = cp + 1 := by
        apply Nat.mod_eq_of_lt
        simp only [U16, NUMPULSES] at *
        omega
      split
      · simp only [capOut, Bool.and_eq_true, decide_eq_true_eq, writesLt_append]
        refine ⟨by simp only [hcp1, NUMPULSES] at *; omega, hw, by simpa using hcp⟩
      · next hno =>
        simp only [capOut, capStateOK, Bool.and_eq_true, decide_eq_true_eq, writesLt_append]
        refine ⟨?_, hw, by simpa using hcp⟩
        have : (cp + 1) % U16 ≠ NUMPULSES := by tauto
        simp only [hcp1, NUMPULSES] at *
        omega
    · simp only [capStep, Bool.not_eq_true] at htr ⊢
      simp only [htr, Bool.false_eq_true, if_false]
      split
      · simp only [capOut, Bool.and_eq_true, decide_eq_true_eq]
        exact ⟨by omega, hw⟩
      · simp only [capOut, capStateOK, Bool.and_eq_true, decide_eq_true_eq]
        exact ⟨hcp, hw⟩

theorem capIter_capOut (trace : Nat → Bool) :
    ∀ (n : Nat) (s : CapState), capStateOK s = true →
      capOut (capIter trace n s) = true := by
  intro n
  induction n with
  | zero =>
    intro s h
    simpa [capIter, capOut] using h
  | succ n ih =>
    intro s h
    rw [capIter_succ]
    have hstep := capStep_capOut trace s h
    cases hs : capStep trace s with
    | inl s1 =>
      rw [hs] at hstep
      exact ih s1 hstep
    | inr d =>
      rw [hs] at hstep
      exact hstep

/-! ## Capture: termination once the first pair is recorded -/

theorem capMeasure_pos (s : CapState) (h : capInv s) : 1 ≤ capMeasure s := by
  obtain ⟨t, cp, w, ph⟩ := s
  have h2 : cp < NUMPULSES := h.2.1
  cases ph <;>
    simp only [capMeasure, NUMPULSES, MAXPULSE] at * <;>
    omega

theorem capStep_progress (trace : Nat → Bool) (s : CapState) (h : capInv s) :
    (∃ d, capStep trace s = .inr d ∧ d.1 ≤ NUMPULSES) ∨
    (∃ s1, capStep trace s = .inl s1 ∧ capInv s1 ∧ capMeasure s1 < capMeasure s) := by
  obtain ⟨t, cp, w, ph⟩ := s
  have h1 : 1 ≤ cp := h.1
  have h2 : cp < NUMPULSES := h.2.1
  cases ph with
  | measHigh hp =>
    have h3 : hp < MAXPULSE := h.2.2
    have hmod : (hp + 1) % U16 = hp + 1 := by
      apply Nat.mod_eq_of_lt
      simp only [U16, MAXPULSE] at *
      omega
    by_cases htr : trace t = true
    · by_cases hend : MAXPULSE ≤ hp + 1
      · left
        refine ⟨(cp, w), ?_, by simp only [NUMPULSES] at *; omega⟩
        simp only [capStep, htr, if_true, hmod]
        rw [if_pos]
        left
        exact ⟨hend, by omega⟩
      · right
        refine ⟨⟨t + 1, cp, w, .measHigh (hp + 1)⟩, ?_, ?_, ?_⟩
        · simp only [capStep, htr, if_true, hmod]
          rw [if_neg]
          push_neg
          exact ⟨fun hc => absurd hc hend, by simp only [NUMPULSES] at *; omega⟩
        · exact ⟨h1, h2, by simp only [MAXPULSE] at *; omega⟩
        · simp only [capMeasure, MAXPULSE, NUMPULSES] at *
          omega
    · -- pin reads low: the write happens and the low loop starts
      have hc1 : ¬ ((MAXPULSE ≤ 1 ∧ cp ≠ 0) ∨ cp = NUMPULSES) := by
        simp only [MAXPULSE, NUMPULSES] at *
        omega
      right
      refine ⟨⟨t + 1, cp, w ++ [(cp, 0, hp)], .measLow 1⟩, ?_, ?_, ?_⟩
      · simp only [Bool.not_eq_true] at htr
        simp only [capStep, htr, Bool.false_eq_true, if_false]
        rw [if_neg hc1]
      · exact ⟨h1, h2, by simp only [MAXPULSE]; omega⟩
      · simp only [capMeasure, MAXPULSE, NUMPULSES] at *
        omega
  | measLow lp =>
    have h3 : lp < MAXPULSE := h.2.2
    have hmod : (lp + 1) % U16 = lp + 1 := by
      apply Nat.mod_eq_of_lt
      simp only [U16, MAXPULSE] at *
      omega
    by_cases htr : trace t = true
    · -- pin reads high: the pair completes
      have hcp1 : (cp + 1) % U16 = cp + 1 := by
        apply Nat.mod_eq_of_lt
        simp only [U16, NUMPULSES] at *
        omega
      by_cases hfull : cp + 1 = NUMPULSES
      · left
        refine ⟨((cp + 1) % U16, w ++ [(cp, 1, lp)]), ?_, by simp only [hcp1]; omega⟩
        simp only [capStep, htr, if_true, hcp1]
        rw [if_pos]
        right
        exact hfull
      · right
        refine ⟨⟨t + 1, cp + 1, w ++ [(cp, 1, lp)], .measHigh 1⟩, ?_, ?_, ?_⟩
        · simp only [capStep, htr, if_true, hcp1]
          rw [if_neg]
          push_neg
          exact ⟨fun hc => by simp only [MAXPULSE] at hc; omega, hfull⟩
        · refine ⟨?_, ?_, ?_⟩
          · show 1 ≤ cp + 1
            omega
          · show cp + 1 < NUMPULSES
            simp only [NUMPULSES] at h2 hfull ⊢
            omega
          · show (1 : Nat) < MAXPULSE
            simp only [MAXPULSE]
            omega
        · simp only [capMeasure, MAXPULSE, NUMPULSES] at *
          omega
    · by_cases hend : MAXPULSE ≤ lp + 1
      · left
        refine ⟨(cp, w), ?_, by simp only [NUMPULSES] at *; omega⟩
        simp only [Bool.not_eq_true] at htr
        simp only [capStep, htr, Bool.false_eq_true, if_false, hmod]
        rw [if_pos]
        left
        exact ⟨hend, by omega⟩
      · right
        refine ⟨⟨t + 1, cp, w, .measLow (lp + 1)⟩, ?_, ?_, ?_⟩
        · simp only [Bool.not_eq_true] at htr
          simp only [capStep, htr, Bool.false_eq_true, if_false, hmod]
          rw [if_neg]
          push_neg
          exact ⟨fun hc => absurd hc hend, by simp only [NUMPULSES] at *; omega⟩
        · exact ⟨h1, h2, by simp only [MAXPULSE] at *; omega⟩
        · simp only [capMeasure, MAXPULSE, NUMPULSES] at *
          omega

theorem capTerminates (trace : Nat → Bool) :
    ∀ (m : Nat) (s : CapState), capMeasure s ≤ m → capInv s →
      ∃ n, n ≤ m ∧ ∃ d, capIter trace n s = .inr d ∧ d.1 ≤ NUMPULSES := by
  intro m
  induction m with
  | zero =>
    intro s hm hinv
    have := capMeasure_pos s hinv
    omega
  | succ m ih =>
    intro s hm hinv
    rcases capStep_progress trace s hinv with ⟨d, hd, hdle⟩ | ⟨s1, hs1, hinv1, hlt⟩
    · refine ⟨1, by omega, d, ?_, hdle⟩
      rw [capIter_succ, hd]
    · have hm1 : capMeasure s1 ≤ m := by omega
      obtain ⟨n, hn, d, hd, hdle⟩ := ih s1 hm1 hinv1
      refine ⟨n + 1, by omega, d, ?_, hdle⟩
      rw [capIter_succ, hs1]
      exact hd

/-- With the early return armed (currentpulse at least 1) and the input
held low from the current poll instant on, the low loop returns as soon
as lowpulse reaches MAXPULSE. -/
theorem capRunLowTail (trace : Nat → Bool) :
    ∀ (k t cp lp : Nat) (w : List CapWrite),
      lp + k = MAXPULSE → lp < MAXPULSE → 1 ≤ cp → cp < NUMPULSES →
      (∀ u, t ≤ u → trace u = false) →
      capIter trace k ⟨t, cp, w, .measLow lp⟩ = .inr (cp, w) := by
  intro k
  induction k with
  | zero =>
    intro t cp lp w hk hlp _ _ _
    omega
  | succ k ih =>
    intro t cp lp w hk hlp hcp1 hcp2 htr
    have ht0 : trace t = false := htr t le_rfl
    have hmod : (lp + 1) % U16 = lp + 1 := by
      apply Nat.mod_eq_of_lt
      simp only [U16, MAXPULSE] at *
      omega
    rw [capIter_succ]
    by_cases hend : MAXPULSE ≤ lp + 1
    · have hstep : capStep trace ⟨t, cp, w, .measLow lp⟩ = .inr (cp, w) := by
        simp only [capStep, ht0, Bool.false_eq_true, if_false, hmod]
        rw [if_pos]
        left
        exact ⟨hend, by omega⟩
      rw [hstep]
    · have hstep : capStep trace ⟨t, cp, w, .measLow lp⟩ =
          .inl ⟨t + 1, cp, w, .measLow (lp + 1)⟩ := by
        simp only [capStep, ht0, Bool.false_eq_true, if_false, hmod]
        rw [if_neg]
        push_neg
        exact ⟨fun hc => absurd hc hend, by simp only [NUMPULSES] at *; omega⟩
      rw [hstep]
      exact ih (t + 1) cp (lp + 1) w (by omega) (by omega) hcp1 hcp2
        (fun u hu => htr u (by omega))

/-! ## Claim C1 -/

/-- C1 counterexample: the claim says capture terminates for every input
level trace, in particular for an input held permanently high.  It does
not: while currentpulse is still 0 the early-return test
(highpulse >= MAXPULSE && currentpulse != 0) can never fire, so on the
all-high trace listenForIR polls forever and never returns. -/
theorem C1_counterexample_all_high_diverges : captureDiverges (fun _ => true) := by
  intro n
  have h := capRunHigh (fun _ => true) n 0 0 [] (by norm_num [U16]) (fun j _ => rfl)
  show (capIter (fun _ => true) n ⟨0, 0, [], .measHigh 0⟩).isLeft = true
  rw [h]
  rfl

/-- C1 (amended): capture terminates once the first pulse pair has been
recorded.  From any session state with currentpulse in [1, NUMPULSES)
and the current loop counter below MAXPULSE, listenForIR returns within
capMeasure more poll steps, with a return value of at most NUMPULSES
recorded pairs; and with the input held permanently low it returns as
soon as lowpulse reaches MAXPULSE, i.e. within one MAXPULSE-bounded poll
span.  The unamended universal claim is false: an input held constantly
at one level from the start of the session (pair index still 0) keeps
capture polling forever, as the counterexample theorem shows. -/
theorem C1_capture_termination_amended :
    (∀ (trace : Nat → Bool) (s : CapState), capInv s →
       ∃ n, n ≤ capMeasure s ∧ ∃ d, capIter trace n s = .inr d ∧ d.1 ≤ NUMPULSES) ∧
    (∀ (trace : Nat → Bool) (t cp lp : Nat) (w : List CapWrite),
       1 ≤ cp → cp < NUMPULSES → lp < MAXPULSE →
       (∀ u, t ≤ u → trace u = false) →
       capIter trace (MAXPULSE - lp) ⟨t, cp, w, .measLow lp⟩ = .inr (cp, w)) := by
  constructor
  · intro trace s hinv
    exact capTerminates trace (capMeasure s) s le_rfl hinv
  · intro trace t cp lp w h1 h2 h3 htr
    exact capRunLowTail trace (MAXPULSE - lp) t cp lp w (by omega) h3 h1 h2 htr

/-- Witness for the amended C1 theorem at concrete inputs: a session that
has recorded its first pair and sits in the low loop at lowpulse 4999
with the line held low returns on the next poll. -/
theorem C1_capture_termination_amended_witness :
    (capInv ⟨0, 1, [], .measLow 4999⟩ ∧
      ∃ n, n ≤ capMeasure ⟨0, 1, [], .measLow 4999⟩ ∧
        ∃ d, capIter (fun _ => false) n ⟨0, 1, [], .measLow 4999⟩ = .inr d ∧
          d.1 ≤ NUMPULSES) ∧
    capIter (fun _ => false) (MAXPULSE - 4999) ⟨0, 1, [], .measLow 4999⟩ = .inr (1, []) := by
  have hinv : capInv ⟨0, 1, [], .measLow 4999⟩ := by
    refine ⟨le_rfl, ?_, ?_⟩
    · show (1 : Nat) < NUMPULSES
      norm_num [NUMPULSES]
    · show (4999 : Nat) < MAXPULSE
      norm_num [MAXPULSE]
  refine ⟨⟨hinv, C1_capture_termination_amended.1 (fun _ => false) _ hinv⟩, ?_⟩
  exact C1_capture_termination_amended.2 (fun _ => false) 0 1 4999 []
    (by omega) (by norm_num [NUMPULSES]) (by norm_num [MAXPULSE]) (fun u _ => rfl)

/-! ## Claim C2 -/

/-- C2: on every input level trace and for any poll budget, a capture
session started from the initial state keeps currentpulse strictly below
NUMPULSES while running, returns at most NUMPULSES recorded pairs, and
every write it ever performs into the pulses buffer uses a pair index
strictly below NUMPULSES (100): the 100-slot buffer is never indexed out
of bounds.  This holds because a completed 100th pair hands control back
with the pin necessarily reading high at the same poll instant, so the
high loop runs its buffer-full early return before any further write. -/
theorem C2_buffer_writes_in_bounds (trace : Nat → Bool) (n : Nat) :
    capOut (capIter trace n capInit) = true :=
  capIter_capOut trace n capInit (by decide)

/-! ## Claim C9 -/

/-- C9: a pulse whose measured length reaches MAXPULSE ends the capture
session early — from either polling loop, with at least one pair already
recorded, the poll that takes the counter to MAXPULSE returns — unless
it is the very first pulse of the session: while currentpulse is still
0, consecutive high polls only keep counting (third conjunct, k high
polls from any starting count), and when the line finally drops the
oversized pulse is still written into the buffer as pair 0 and the
session continues in the low loop. -/
theorem C9_maxpulse_early_return :
    (∀ (trace : Nat → Bool) (t cp : Nat) (w : List CapWrite),
       1 ≤ cp → trace t = true →
       capStep trace ⟨t, cp, w, .measHigh (MAXPULSE - 1)⟩ = .inr (cp, w)) ∧
    (∀ (trace : Nat → Bool) (t cp : Nat) (w : List CapWrite),
       1 ≤ cp → trace t = false →
       capStep trace ⟨t, cp, w, .measLow (MAXPULSE - 1)⟩ = .inr (cp, w)) ∧
    (∀ (trace : Nat → Bool) (k t hp : Nat) (w : List CapWrite),
       hp < U16 → (∀ j, j < k → trace (t + j) = true) → trace (t + k) = false →
       capIter trace (k + 1) ⟨t, 0, w, .measHigh hp⟩ =
         .inl ⟨t + k + 1, 0, w ++ [(0, 0, (hp + k) % U16)], .measLow 1⟩) := by
  refine ⟨?_, ?_, ?_⟩
  · intro trace t cp w hcp htr
    have hmod : (MAXPULSE - 1 + 1) % U16 = MAXPULSE := by
      norm_num [U16, MAXPULSE]
    simp only [capStep, htr, if_true, hmod]
    rw [if_pos]
    left
    exact ⟨le_rfl, by omega⟩
  · intro trace t cp w hcp htr
    have hmod : (MAXPULSE - 1 + 1) % U16 = MAXPULSE := by
      norm_num [U16, MAXPULSE]
    simp only [capStep, htr, Bool.false_eq_true, if_false, hmod]
    rw [if_pos]
    left
    exact ⟨le_rfl, by omega⟩
  · intro trace k t hp w hhp htr hlow
    have hrun := capRunHigh trace k t hp w hhp htr
    rw [capIter_add trace k 1, hrun]
    show capIter trace 1 ⟨t + k, 0, w, .measHigh ((hp + k) % U16)⟩ = _
    have hcond : ¬ ((MAXPULSE ≤ 1 ∧ (0 : Nat) ≠ 0) ∨ (0 : Nat) = NUMPULSES) := by
      simp only [NUMPULSES, MAXPULSE]
      omega
    rw [capIter_succ]
    have hstep : capStep trace ⟨t + k, 0, w, .measHigh ((hp + k) % U16)⟩ =
        .inl ⟨t + k + 1, 0, w ++ [(0, 0, (hp + k) % U16)], .measLow 1⟩ := by
      simp [capStep, hlow, NUMPULSES]
    rw [hstep]
    rfl

/-- Witness for C9 at concrete inputs: with one pair recorded, a high
poll at count 4999 returns, a low poll at count 4999 returns; and a
session whose first pulse lasts 3 high polls before the line drops
records pair 0 with count 3 and keeps running. -/
theorem C9_maxpulse_early_return_witness :
    capStep (fun _ => true) ⟨0, 1, [], .measHigh (MAXPULSE - 1)⟩ = .inr (1, []) ∧
    capStep (fun _ => false) ⟨0, 1, [], .measLow (MAXPULSE - 1)⟩ = .inr (1, []) ∧
    capIter (fun n => decide (n < 3)) 4 ⟨0, 0, [], .measHigh 0⟩ =
      .inl ⟨4, 0, [(0, 0, 3)], .measLow 1⟩ := by
  refine ⟨C9_maxpulse_early_return.1 (fun _ => true) 0 1 [] (by omega) rfl,
    C9_maxpulse_early_return.2.1 (fun _ => false) 0 1 [] (by omega) rfl, ?_⟩
  have h := C9_maxpulse_early_return.2.2 (fun n => decide (n < 3)) 3 0 0 []
    (by norm_num [U16]) (fun j hj => by simp only [decide_eq_true_eq]; omega)
    (by norm_num)
  simpa [U16] using h

/-! ## Decoder: arithmetic characterisation of the 32 step loop -/

theorem decodeBit_le_one (t : Nat) : decodeBit t ≤ 1 := by
  by_cases h : 0 < (t * RESOLUTION) % U16 ∧ (t * RESOLUTION) % U16 < 500
  · simp [decodeBit, h]
  · simp [decodeBit, h]

/-- Bitwise or with 1 on an even number is plain addition of 1. -/
theorem lor_one_of_even (x : Nat) (hx : x % 2 = 0) : x ||| 1 = x + 1 := by
  apply Nat.eq_of_testBit_eq
  intro i
  cases i with
  | zero =>
    rw [Nat.testBit_or, Nat.testBit_zero, Nat.testBit_zero, Nat.testBit_zero]
    have h1 : ¬ x % 2 = 1 := by omega
    have h2 : (x + 1) % 2 = 1 := by omega
    simp [h1, h2]
  | succ i =>
    rw [Nat.testBit_or, Nat.testBit_succ, Nat.testBit_succ, Nat.testBit_succ]
    have h1 : (1 : Nat) / 2 = 0 := by norm_num
    have h2 : (x + 1) / 2 = x / 2 := by omega
    rw [h1, h2, Nat.zero_testBit, Bool.or_false]

/-- One decode iteration equals shifting in the decoded bit, in plain
modular arithmetic. -/
theorem decodeStep_eq (acc t : Nat) :
    decodeStep acc t = (2 * acc + decodeBit t) % U32 := by
  unfold decodeStep
  have hsh : acc <<< 1 = acc * 2 := by
    rw [Nat.shiftLeft_eq]
  have hb := decodeBit_le_one t
  rcases Nat.le_one_iff_eq_zero_or_eq_one.mp hb with hb0 | hb1
  · rw [hb0, hsh, Nat.or_zero]
    congr 1
    ring
  · rw [hb1, hsh, lor_one_of_even _ (by simp only [U32]; omega)]
    simp only [U32]
    omega

theorem mod_mul_add_mod (x y z M : Nat) :
    ((x % M) * y + z) % M = (x * y + z) % M :=
  ((Nat.mod_modEq x M).mul_right y).add_right z

theorem bitsVal_lt (highs : Nat → Nat) : ∀ (n i : Nat), bitsVal highs i n < 2 ^ n := by
  intro n
  induction n with
  | zero =>
    intro i
    simp [bitsVal]
  | succ n ih =>
    intro i
    have h1 := decodeBit_le_one (highs i)
    have h2 := ih (i + 1)
    have h3 : (2 : Nat) ^ (n + 1) = 2 * 2 ^ n := by ring
    have h4 : decodeBit (highs i) * 2 ^ n ≤ 2 ^ n := by
      simpa using Nat.mul_le_mul_right (2 ^ n) h1
    simp only [bitsVal]
    omega

/-- Closed form of the decode loop on accumulators below 2^32. -/
theorem decodeFrom_eq (highs : Nat → Nat) :
    ∀ (n a i : Nat), a < U32 →
      decodeFrom highs a i n = (a * 2 ^ n + bitsVal highs i n) % U32 := by
  intro n
  induction n with
  | zero =>
    intro a i ha
    show a = (a * 2 ^ 0 + bitsVal highs i 0) % U32
    have hb : bitsVal highs i 0 = 0 := rfl
    rw [hb, pow_zero, mul_one, add_zero, Nat.mod_eq_of_lt ha]
  | succ n ih =>
    intro a i ha
    have hstep : decodeStep a (highs i) = (2 * a + decodeBit (highs i)) % U32 :=
      decodeStep_eq a (highs i)
    have hlt : decodeStep a (highs i) < U32 := by
      rw [hstep]
      exact Nat.mod_lt _ (by norm_num [U32])
    show decodeFrom highs (decodeStep a (highs i)) (i + 1) n = _
    rw [ih (decodeStep a (highs i)) (i + 1) hlt, hstep,
      mod_mul_add_mod (2 * a + decodeBit (highs i)) (2 ^ n) (bitsVal highs (i + 1) n) U32]
    congr 1
    simp only [bitsVal]
    ring

/-- Closed form of decode for an arbitrary starting accumulator: the
first shift already truncates to 32 bits, so no bound on acc is needed. -/
theorem decode_eq (highs : Nat → Nat) (acc : Nat) :
    decode highs acc = (acc * 2 ^ 32 + bitsVal highs 0 32) % U32 := by
  show decodeFrom highs (decodeStep acc (highs 0)) 1 31 = _
  have hstep : decodeStep acc (highs 0) = (2 * acc + decodeBit (highs 0)) % U32 :=
    decodeStep_eq acc (highs 0)
  have hlt : decodeStep acc (highs 0) < U32 := by
    rw [hstep]
    exact Nat.mod_lt _ (by norm_num [U32])
  rw [decodeFrom_eq highs 31 _ 1 hlt, hstep,
    mod_mul_add_mod (2 * acc + decodeBit (highs 0)) (2 ^ 31) (bitsVal highs 1 31) U32]
  have hnum : (2 * acc + decodeBit (highs 0)) * 2 ^ 31 + bitsVal highs 1 31
      = acc * 2 ^ 32 + bitsVal highs 0 32 := by
    have h32 : bitsVal highs 0 32 = decodeBit (highs 0) * 2 ^ 31 + bitsVal highs 1 31 := rfl
    have e31 : (2 : Nat) ^ 31 = 2147483648 := by norm_num
    have e32 : (2 : Nat) ^ 32 = 4294967296 := by norm_num
    rw [h32, e31, e32]
    omega
  rw [hnum]

theorem bitsVal_all_zero (highs : Nat → Nat) (hz : ∀ j, decodeBit (highs j) = 0) :
    ∀ (n i : Nat), bitsVal highs i n = 0 := by
  intro n
  induction n with
  | zero =>
    intro i
    rfl
  | succ n ih =>
    intro i
    simp [bitsVal, hz i, ih (i + 1)]

theorem bitsVal_all_one (highs : Nat → Nat) (ho : ∀ j, decodeBit (highs j) = 1) :
    ∀ (n i : Nat), bitsVal highs i n = 2 ^ n - 1 := by
  intro n
  induction n with
  | zero =>
    intro i
    rfl
  | succ n ih =>
    intro i
    have h3 : (2 : Nat) ^ (n + 1) = 2 * 2 ^ n := by ring
    have h4 : (1 : Nat) ≤ 2 ^ n := Nat.one_le_two_pow
    simp only [bitsVal, ho i, ih (i + 1), one_mul]
    omega

/-! ## Decoder: bit level characterisation -/

theorem testBit_mul_pow_add_self (b r n : Nat) (hb : b ≤ 1) (hr : r < 2 ^ n) :
    Nat.testBit (b * 2 ^ n + r) n = decide (b = 1) := by
  rw [Nat.testBit_to_div_mod]
  have hdiv : (b * 2 ^ n + r) / 2 ^ n = b := by
    rw [mul_comm b (2 ^ n), Nat.mul_add_div (Nat.pos_pow_of_pos n (by norm_num)),
      Nat.div_eq_of_lt hr]
    omega
  rw [hdiv]
  rcases Nat.le_one_iff_eq_zero_or_eq_one.mp hb with h | h <;> simp [h]

theorem testBit_mul_pow_add_lt (b r n m : Nat) (hm : m < n) :
    Nat.testBit (b * 2 ^ n + r) m = Nat.testBit r m := by
  obtain ⟨k, rfl⟩ : ∃ k, n = m + (k + 1) := ⟨n - m - 1, by omega⟩
  rw [Nat.testBit_to_div_mod, Nat.testBit_to_div_mod]
  have hpow : (2 : Nat) ^ (m + (k + 1)) = 2 ^ (k + 1) * 2 ^ m := by
    rw [← pow_add]
    congr 1
    omega
  have hdiv : (b * 2 ^ (m + (k + 1)) + r) / 2 ^ m = r / 2 ^ m + b * 2 ^ (k + 1) := by
    rw [hpow, ← mul_assoc, add_comm,
      Nat.add_mul_div_right r (b * 2 ^ (k + 1)) (Nat.pos_pow_of_pos m (by norm_num))]
  rw [hdiv]
  have hc : b * 2 ^ (k + 1) = 2 * (b * 2 ^ k) := by ring
  rw [hc]
  have hpar : (r / 2 ^ m + 2 * (b * 2 ^ k)) % 2 = r / 2 ^ m % 2 := by omega
  rw [hpar]

theorem testBit_bitsVal (highs : Nat → Nat) :
    ∀ (n i j : Nat), i < n →
      Nat.testBit (bitsVal highs j n) (n - 1 - i) = decide (decodeBit (highs (j + i)) = 1) := by
  intro n
  induction n with
  | zero =>
    intro i j hi
    omega
  | succ n ih =>
    intro i j hi
    cases i with
    | zero =>
      have hpos : n + 1 - 1 - 0 = n := by omega
      rw [hpos]
      show Nat.testBit (decodeBit (highs j) * 2 ^ n + bitsVal highs (j + 1) n) n = _
      rw [testBit_mul_pow_add_self _ _ _ (decodeBit_le_one _) (bitsVal_lt highs n (j + 1))]
      congr 1
    | succ i =>
      have hpos : n + 1 - 1 - (i + 1) = n - 1 - i := by omega
      rw [hpos]
      show Nat.testBit (decodeBit (highs j) * 2 ^ n + bitsVal highs (j + 1) n) (n - 1 - i) = _
      rw [testBit_mul_pow_add_lt _ _ _ _ (by omega), ih i (j + 1) (by omega),
        show j + 1 + i = j + (i + 1) by omega]

/-- The bit the decoder emits for position i (i = 0 first, ending most
significant) is exactly the threshold decision on the high duration of
pulse pair i, for any starting accumulator. -/
theorem decode_testBit (highs : Nat → Nat) (acc i : Nat) (hi : i < 32) :
    Nat.testBit (decode highs acc) (31 - i) = decide (decodeBit (highs i) = 1) := by
  rw [decode_eq]
  have hB : bitsVal highs 0 32 < 2 ^ 32 := bitsVal_lt highs 32 0
  have hU : U32 = 2 ^ 32 := by norm_num [U32]
  have hmod : (acc * 2 ^ 32 + bitsVal highs 0 32) % U32 = bitsVal highs 0 32 := by
    rw [hU, add_comm, Nat.add_mul_mod_self_right]
    exact Nat.mod_eq_of_lt hB
  rw [hmod]
  have h := testBit_bitsVal highs 32 i 0 hi
  simpa using h

/-! ## Claim C3 -/

/-- C3 counterexample: the claim says the decoder emits bit 1 whenever
t * RESOLUTION is outside the open interval (0, 500) microseconds.  But
the product is computed in 16 bit unsigned arithmetic: for the recorded
count t = 33000 (reachable as an oversized first pulse), the true
product 66000 wraps to 66000 % 65536 = 464, which lies in (0, 500), so
the decoder emits bit 0 for that position even though
t * RESOLUTION = 66000 is not below 500. -/
theorem C3_counterexample_product_wrap :
    Nat.testBit (decode (fun _ => 33000) 0) 31 = false ∧
    ¬ (0 < 33000 * RESOLUTION ∧ 33000 * RESOLUTION < 500) := by
  constructor
  · decide
  · simp only [RESOLUTION]
    omega

/-- C3 (amended): for every bit position i in 0..31 and recorded tick
count below 32768 (so that the 16 bit product t * RESOLUTION cannot
wrap), the decoder emits bit 0 for position i exactly when
0 < t * RESOLUTION < 500 microseconds, and bit 1 otherwise, including
t = 0 and products of at least 500; for counts of 32768 and above the
threshold rule instead applies to the wrapped product
(t * RESOLUTION) % 65536, as the counterexample shows.  Bit i of the
loop is the bit of weight 2^(31-i) of the decoded word, for any
starting accumulator. -/
theorem C3_threshold_bit_rule_amended (highs : Nat → Nat) (acc i : Nat)
    (hi : i < 32) (ht : highs i < 32768) :
    (Nat.testBit (decode highs acc) (31 - i) = false ↔
      (0 < highs i * RESOLUTION ∧ highs i * RESOLUTION < 500)) := by
  rw [decode_testBit highs acc i hi]
  have hmod : (highs i * RESOLUTION) % U16 = highs i * RESOLUTION := by
    apply Nat.mod_eq_of_lt
    simp only [RESOLUTION, U16]
    omega
  unfold decodeBit
  rw [hmod]
  by_cases h : 0 < highs i * RESOLUTION ∧ highs i * RESOLUTION < 500
  · rw [if_pos h]
    have hd : (decide ((0 : Nat) = 1)) = false := by decide
    rw [hd]
    exact iff_of_true rfl h
  · rw [if_neg h]
    have hd : (decide ((1 : Nat) = 1)) = true := by decide
    rw [hd]
    exact iff_of_false (by simp) h

/-- Witness for the amended C3 theorem at concrete inputs: a count of
249 ticks (498 microseconds) at position 0 yields bit 0. -/
theorem C3_threshold_bit_rule_amended_witness :
    ((0 : Nat) < 32 ∧ (249 : Nat) < 32768) ∧
    (Nat.testBit (decode (fun _ => 249) 77) (31 - 0) = false ↔
      (0 < 249 * RESOLUTION ∧ 249 * RESOLUTION < 500)) :=
  ⟨⟨by norm_num, by norm_num⟩,
    C3_threshold_bit_rule_amended (fun _ => 249) 77 0 (by norm_num) (by norm_num)⟩

/-! ## Claim C4 -/

/-- C4: decode applied to a sample whose every high duration is 100
microseconds (50 ticks at RESOLUTION = 2) yields 0x00000000, and applied
to a sample whose every high duration is 600 microseconds (300 ticks)
yields 0xFFFFFFFF, for every starting accumulator value: all 32 bits of
the initial accumulator are shifted out by the 32 step loop. -/
theorem C4_constant_samples_decode (acc : Nat) :
    decode (fun _ => 50) acc = 0x00000000 ∧ decode (fun _ => 300) acc = 0xFFFFFFFF := by
  have hU : U32 = 2 ^ 32 := by norm_num [U32]
  constructor
  · rw [decode_eq]
    have hz : ∀ j, decodeBit ((fun _ : Nat => (50 : Nat)) j) = 0 :=
      fun _ => (show decodeBit 50 = 0 by decide)
    rw [bitsVal_all_zero _ hz 32 0, add_zero, hU]
    exact Nat.mul_mod_left acc (2 ^ 32)
  · rw [decode_eq]
    have ho : ∀ j, decodeBit ((fun _ : Nat => (300 : Nat)) j) = 1 :=
      fun _ => (show decodeBit 300 = 1 by decide)
    rw [bitsVal_all_one _ ho 32 0, hU, add_comm, Nat.add_mul_mod_self_right]
    norm_num

/-! ## Claim C5 -/

/-- C5: the beep fires in a loop cycle exactly when the decoded code
equals the target code 0xFFFFFFFF and the trigger counter, after its
increment by 2 for that match (performed modulo 256, before the end of
cycle decrement), is at least sensitivity (6); in particular from
counter 4 a single matching cycle fires the alert at incremented value
6 and ends the cycle with the counter at 5. -/
theorem C5_alert_exact_condition :
    (∀ irCode trigger : Nat,
      ((loopTrigger irCode trigger).1 = true ↔
        (irCode = targetCode ∧ sensitivity ≤ (trigger + 2) % U8))) ∧
    loopTrigger targetCode 4 = (true, 5) := by
  constructor
  · intro irCode trigger
    by_cases h : irCode = targetCode
    · by_cases h2 : 1 ≤ (trigger + 2) % U8 <;>
        simp [loopTrigger, h, h2]
    · by_cases h2 : 1 ≤ trigger <;>
        simp [loopTrigger, h, h2]
  · decide

/-! ## Claim C6 -/

/-- C6: starting from any counter value, n consecutive loop cycles whose
decoded code is not the target leave the trigger counter at exactly the
truncated difference trigger - n, that is max(0, trigger - n): the
decrement is guarded by trigger >= 1, so the counter never goes below 0
and never wraps at 0. -/
theorem C6_nonmatching_cycles_decay (irCode : Nat) (h : irCode ≠ targetCode) :
    ∀ (n trigger : Nat), loopIter irCode n trigger = trigger - n := by
  intro n
  induction n with
  | zero =>
    intro trigger
    simp [loopIter]
  | succ n ih =>
    intro trigger
    have hstep : (loopTrigger irCode trigger).2 = trigger - 1 := by
      by_cases h2 : 1 ≤ trigger
      · simp [loopTrigger, h, h2]
      · simp only [loopTrigger, if_neg h, if_neg h2]
        omega
    show loopIter irCode n (loopTrigger irCode trigger).2 = trigger - (n + 1)
    rw [hstep, ih (trigger - 1)]
    omega

/-- Witness for C6 at concrete inputs: code 0 does not match, and 3
non-matching cycles from counter 5 leave it at 2. -/
theorem C6_nonmatching_cycles_decay_witness :
    (0 : Nat) ≠ targetCode ∧ loopIter 0 3 5 = 5 - 3 :=
  ⟨by norm_num [targetCode], C6_nonmatching_cycles_decay 0 (by norm_num [targetCode]) 3 5⟩

/-! ## Claim C10 -/

set_option maxRecDepth 8192 in
/-- C10: the trigger counter is 8 bit unsigned (stays below 256) and its
increment by 2 wraps modulo 256 with no saturation.  Matching cycles add
a net +1 each (increment 2, decrement 1), so from 0 the counter climbs
to 254 in 254 matching cycles, with the beep firing (e.g. at cycle 253);
on the 255th matching cycle the increment wraps 254 + 2 to 0, the beep
does not fire despite the match, and the counter restarts from 0; it
takes 4 further matching cycles (counter back at 4) before the beep
fires again. -/
theorem C10_trigger_counter_wraparound :
    (∀ irCode trigger : Nat, trigger < U8 → (loopTrigger irCode trigger).2 < U8) ∧
    (loopTrigger targetCode 254 = (false, 0) ∧
      loopIter targetCode 254 0 = 254 ∧
      (loopTrigger targetCode (loopIter targetCode 253 0)).1 = true ∧
      (loopTrigger targetCode (loopIter targetCode 254 0)).1 = false ∧
      loopIter targetCode 255 0 = 0 ∧
      loopIter targetCode 259 0 = 4 ∧
      (loopTrigger targetCode (loopIter targetCode 259 0)).1 = true) := by
  constructor
  · intro irCode trigger hlt
    have hU : (0 : Nat) < U8 := by norm_num [U8]
    by_cases h : irCode = targetCode
    · simp only [loopTrigger, if_pos h]
      by_cases h2 : 1 ≤ (trigger + 2) % U8
      · rw [if_pos h2]
        show (trigger + 2) % U8 - 1 < U8
        have := Nat.mod_lt (trigger + 2) hU
        omega
      · rw [if_neg h2]
        show (trigger + 2) % U8 < U8
        exact Nat.mod_lt _ hU
    · simp only [loopTrigger, if_neg h]
      by_cases h2 : 1 ≤ trigger
      · rw [if_pos h2]
        show trigger - 1 < U8
        omega
      · rw [if_neg h2]
        exact hlt
  · exact ⟨by decide, by decide, by decide, by decide, by decide, by decide, by decide⟩

/-- Witness for C10 at a concrete input: from counter 5 a cycle keeps
the counter below 256. -/
theorem C10_trigger_counter_wraparound_witness :
    (5 : Nat) < U8 ∧ (loopTrigger targetCode 5).2 < U8 :=
  ⟨by norm_num [U8], C10_trigger_counter_wraparound.1 targetCode 5 (by norm_num [U8])⟩

/-! ## Claim C7 -/

/-- C7: the timer interrupt invokes the sleep transition exactly when
the observed idle time millis() - triggerTimer (32 bit wraparound
subtraction, equal to the true elapsed time while it fits in 32 bits)
has reached sleepTimeout (4000 ms); in particular at idle time 3999 ms
no sleep transition occurs. -/
theorem C7_sleep_gated_by_timeout :
    (∀ now wake last trigger : Nat, last ≤ now → now - last < U32 →
       ((timerISR now wake last trigger).2.2 = true ↔ sleepTimeout ≤ now - last)) ∧
    (∀ wake trigger : Nat, (timerISR 3999 wake 0 trigger).2.2 = false) := by
  constructor
  · intro now wake last trigger hle hlt
    have helapsed : millisElapsed now last = now - last := by
      unfold millisElapsed
      have harr : now + U32 - last = (now - last) + U32 := by omega
      rw [harr, Nat.add_mod_right, Nat.mod_eq_of_lt hlt]
    unfold timerISR
    rw [helapsed]
    by_cases h : sleepTimeout ≤ now - last
    · rw [if_pos h]
      simpa using h
    · rw [if_neg h]
      simpa using h
  · intro wake trigger
    have h : ¬ sleepTimeout ≤ millisElapsed 3999 0 := by
      norm_num [millisElapsed, U32, sleepTimeout]
    unfold timerISR
    rw [if_neg h]

/-- Witness for C7 at concrete inputs: at idle time exactly 4000 ms the
sleep transition runs. -/
theorem C7_sleep_gated_by_timeout_witness :
    ((0 : Nat) ≤ 4000 ∧ (4000 : Nat) - 0 < U32) ∧
    (timerISR 4000 5000 0 3).2.2 = true := by
  refine ⟨⟨by omega, by norm_num [U32]⟩, ?_⟩
  exact (C7_sleep_gated_by_timeout.1 4000 5000 0 3 (by omega)
    (by norm_num [U32])).mpr (by norm_num [sleepTimeout])

/-! ## Claim C8 -/

/-- C8: whenever the timer interrupt runs the sleep transition, on
resume triggerTimer is set to millis() sampled after the wake (the wake
argument), the trigger counter is cleared by naptime, and idle time
measured at that wake instant restarts at 0. -/
theorem C8_wake_resets_idle_timer :
    ∀ now wake last trigger : Nat,
      (timerISR now wake last trigger).2.2 = true →
      (timerISR now wake last trigger).1 = wake ∧
      (timerISR now wake last trigger).2.1 = 0 ∧
      millisElapsed wake wake = 0 := by
  intro now wake last trigger h
  unfold timerISR at h ⊢
  by_cases hc : sleepTimeout ≤ millisElapsed now last
  · rw [if_pos hc]
    refine ⟨rfl, rfl, ?_⟩
    unfold millisElapsed
    have harr : wake + U32 - wake = U32 := by omega
    rw [harr, Nat.mod_self]
  · rw [if_neg hc] at h
    exact absurd h (by simp)

/-- Witness for C8 at concrete inputs: a sleep at idle time 4000 ms with
wake sample 4123 resets triggerTimer to 4123. -/
theorem C8_wake_resets_idle_timer_witness :
    (timerISR 4000 4123 0 9).2.2 = true ∧
    ((timerISR 4000 4123 0 9).1 = 4123 ∧
      (timerISR 4000 4123 0 9).2.1 = 0 ∧
      millisElapsed 4123 4123 = 0) :=
  ⟨by decide, C8_wake_resets_idle_timer 4000 4123 0 9 (by decide)⟩

end BeagleTrinket
